import Mathlib

/-!
Verification development for the dataWave core (src/app.js of
brooks-code/blue-pacific-dataviz).

The two functions with real logic are `aggregateAndNormalize` (group raw
records by year/class/state, sum contributions, normalize to shares) and
`distributeWaves` (fair-rounding allocation of a fixed integer budget of
waves across states).  Both are shallowly embedded below.

Modelling conventions:
* JS numbers are modelled as exact rationals (`Rat`) and integers (`Int`);
  floating-point rounding is idealized away, so "within floating point
  tolerance" statements become exact equalities.
* JS plain objects used as dictionaries are modelled as association lists
  (`List (key, value)`); object key order never matters for the
  properties proved here.  `Object.fromEntries` on a list with distinct
  keys is the association list itself.
* The nested dictionary `byYearClassState[year][cls]` and the string key
  template used for `byYearClass` are modelled with the pair key
  `(year, class_num)`, which is in bijection with the JS string keys for
  integer years and classes.
* The `for (let i = 0; delta !== 0; i = (i + 1) % floored.length)` loop of
  `distributeWaves` need not terminate, so it is embedded with explicit
  fuel; `none` means the JS call never returns a value (either an infinite
  loop, or the `TypeError` thrown when `floored` is empty and
  `floored[NaN]` is read).
* `Array.prototype.sort` is stable per the ECMAScript spec, and both
  comparators used by the source are total preorders, so the sort result
  is the unique stable sort; it is embedded as a stable insertion sort.
  `localeCompare` is modelled as code-point comparison; no proved
  property depends on the collation of distinct strings.
-/

namespace BluePacific

/-- A raw input record as destructured at src/app.js lines 62-69. -/
structure RawRecord where
  year : Int
  class_num : Int
  state_code : String
  state_name : String
  subregion_name : String
  value_contribution_to_class : Rat
  state_rank_per_class : Int
  pct_missing_values : Rat
deriving DecidableEq

/-- Per-state accumulator of the first aggregation pass (line 77). -/
structure StateAgg where
  stateName : String
  subregion : String
  rawSum : Rat
  rank : Int
  missing : Rat
deriving DecidableEq

/-- Normalized per-state output of the second pass (lines 89-100). -/
structure NormState where
  stateName : String
  subregion : String
  share : Rat
  rank : Int
  missing : Rat
deriving DecidableEq

/-- First-match association-list lookup; models JS object property read. -/
def lookupP {κ β : Type} [DecidableEq κ] : List (κ × β) → κ → Option β
  | [], _ => none
  | (k, v) :: rest, q => if q = k then some v else lookupP rest q

/-- Fresh accumulator created by `bucket[sc] ||= { ..., rawSum: 0, rank, missing }`
(line 77): stateName and subregion come from the creating record. -/
def initAgg (d : RawRecord) : StateAgg :=
  ⟨d.state_name, d.subregion_name, 0, d.state_rank_per_class, d.pct_missing_values⟩

/-- The three mutations applied to the accumulator for every record
(lines 78-80): add the contribution, overwrite rank and missing. -/
def mutAgg (a : StateAgg) (d : RawRecord) : StateAgg :=
  { a with rawSum := a.rawSum + d.value_contribution_to_class,
           rank := d.state_rank_per_class,
           missing := d.pct_missing_values }

/-- Upsert of one record into the per-state bucket dictionary. -/
def bucketUpd : List (String × StateAgg) → RawRecord → List (String × StateAgg)
  | [], d => [(d.state_code, mutAgg (initAgg d) d)]
  | (sc, a) :: rest, d =>
      if sc = d.state_code then (sc, mutAgg a d) :: rest
      else (sc, a) :: bucketUpd rest d

/-- Key of a (year, class) bucket. -/
abbrev YCKey := Int × Int

/-- Upsert of one record into the (year, class) dictionary of buckets
(lines 74-80). -/
def aggStep : List (YCKey × List (String × StateAgg)) → RawRecord →
    List (YCKey × List (String × StateAgg))
  | [], d => [((d.year, d.class_num), bucketUpd [] d)]
  | (k, b) :: rest, d =>
      if k = (d.year, d.class_num) then (k, bucketUpd b d) :: rest
      else (k, b) :: aggStep rest d

/-- First pass of aggregateAndNormalize: `raw.forEach(...)` (lines 62-81). -/
def aggRaw (raw : List RawRecord) : List (YCKey × List (String × StateAgg)) :=
  raw.foldl aggStep []

/-- Bucket total: `Object.values(states).reduce((s, st) => s + st.rawSum, 0)`
(line 88). -/
def bucketTotal (states : List (String × StateAgg)) : Rat :=
  states.foldl (fun s p => s + p.2.rawSum) 0

/-- The `|| 1` fallback of line 88: a zero total is replaced by 1. -/
def bucketDivisor (states : List (String × StateAgg)) : Rat :=
  if bucketTotal states = 0 then 1 else bucketTotal states

/-- Normalization of one state of a bucket (lines 90-99). -/
def normFun (states : List (String × StateAgg)) (a : StateAgg) : NormState :=
  { stateName := a.stateName, subregion := a.subregion,
    share := a.rawSum / bucketDivisor states,
    rank := a.rank, missing := a.missing }

/-- Second pass for one bucket (lines 89-100): divide each rawSum by the
bucket divisor, keeping the other fields. -/
def normalizeBucket (states : List (String × StateAgg)) : List (String × NormState) :=
  states.map (fun p => (p.1, normFun states p.2))

/-- `Set.add`: JS `Set` keeps insertion order and drops duplicates. -/
def setAdd {α : Type} [DecidableEq α] (s : List α) (x : α) : List α :=
  if x ∈ s then s else s ++ [x]

/-- The `yearsSet` accumulated over the input (line 71). -/
def yearsSet (raw : List RawRecord) : List Int :=
  raw.foldl (fun s d => setAdd s d.year) []

/-- The `classesSet` accumulated over the input (line 72). -/
def classesSet (raw : List RawRecord) : List Int :=
  raw.foldl (fun s d => setAdd s d.class_num) []

/-- Stable insertion of one element: `x` goes before the first `y` with
`le x y`. -/
def insertLe {α : Type} (le : α → α → Bool) (x : α) : List α → List α
  | [] => [x]
  | y :: ys => if le x y then x :: y :: ys else y :: insertLe le x ys

/-- Stable insertion sort; models `Array.prototype.sort` with a consistent
comparator (`le a b` = "a may stay before b"). -/
def sortLe {α : Type} (le : α → α → Bool) (l : List α) : List α :=
  l.foldr (insertLe le) []

/-- `[...set].sort((a, b) => a - b)`: numeric ascending sort (lines 106-107). -/
def sortInt (l : List Int) : List Int :=
  sortLe (fun a b => decide (a ≤ b)) l

/-- The record returned by aggregateAndNormalize (lines 104-108). -/
structure AggResult where
  byYearClass : List (YCKey × List (String × NormState))
  years : List Int
  classes : List Int
deriving DecidableEq

/-- aggregateAndNormalize (src/app.js lines 57-109). -/
def aggregateAndNormalize (raw : List RawRecord) : AggResult :=
  { byYearClass := (aggRaw raw).map (fun p => (p.1, normalizeBucket p.2)),
    years := sortInt (yearsSet raw),
    classes := sortInt (classesSet raw) }

/-- One entry handed to the allocator, as built by renderChart
(lines 202-209); `rank` and `missing` are display-only and omitted here
because distributeWaves never reads them. -/
structure Entry where
  stateCode : String
  stateName : String
  subregion : String
  share : Rat
deriving DecidableEq

/-- One element of the `floored` working array of distributeWaves
(lines 113-119); `exact` is not stored since it is determined by
`share * totalWaves`. -/
structure Item where
  stateCode : String
  stateName : String
  subregion : String
  share : Rat
  count : Int
  rem : Rat
deriving DecidableEq

/-- Build one `floored` element (lines 113-119):
`exact = share * totalWaves`, `count = share > 0 ? max(1, floor(exact)) : 0`,
`rem = exact - floor(exact)`. -/
def mkItem (totalWaves : Int) (e : Entry) : Item :=
  let exact : Rat := e.share * (totalWaves : Rat)
  { stateCode := e.stateCode, stateName := e.stateName, subregion := e.subregion,
    share := e.share,
    count := if 0 < e.share then max 1 ⌊exact⌋ else 0,
    rem := exact - (⌊exact⌋ : Rat) }

/-- Body of one iteration of the redistribution loop (lines 125-128):
skip zero-share items; if delta > 0 increment the count; else decrement
it only when it is above 1. -/
def stepItem (delta : Int) (it : Item) : Item × Int :=
  if it.share = 0 then (it, delta)
  else if 0 < delta then ({ it with count := it.count + 1 }, delta - 1)
  else if 1 < it.count then ({ it with count := it.count - 1 }, delta + 1)
  else (it, delta)

/-- The cyclic redistribution loop (line 124), with explicit fuel.
`none` means the JS loop never finishes: either it runs forever, or, when
the list is empty, `floored[(0 + 1) % 0]` reads `undefined` and the
`it.share` access throws. -/
def distLoop : Nat → List Item → Nat → Int → Option (List Item)
  | 0, _, _, _ => none
  | fuel + 1, l, i, delta =>
    if delta = 0 then some l
    else
      match l.get? i with
      | none => none
      | some it =>
        let p := stepItem delta it
        distLoop fuel (l.set i p.1) ((i + 1) % l.length) p.2

/-- Comparator `(a, b) => b.rem - a.rem` (line 122): `a` may stay before
`b` iff `a.rem ≥ b.rem` (descending by remainder, ties stable). -/
def remGe (a b : Item) : Bool := decide (b.rem ≤ a.rem)

/-- distributeWaves (src/app.js lines 111-132), with explicit fuel for the
redistribution loop.  The result list has the state codes of the sorted
working array; `Object.fromEntries` keeps the last entry per key, so on
inputs with distinct state codes the association list IS the returned
mapping. -/
def distributeWaves (entries : List Entry) (totalWaves : Int) (fuel : Nat) :
    Option (List (String × Int)) :=
  let floored := entries.map (mkItem totalWaves)
  let assigned := (floored.map (fun it => it.count)).sum
  let delta := totalWaves - assigned
  let sorted := sortLe remGe floored
  (distLoop fuel sorted 0 delta).map (fun l => l.map (fun it => (it.stateCode, it.count)))

/-- WAVE_COUNT (line 54). -/
def WAVE_COUNT : Int := 100

/-- Comparator of renderChart (lines 220-223): subregion, then state name;
`localeCompare` modelled as code-point comparison. -/
def entryLe (a b : Entry) : Bool :=
  match compare a.subregion b.subregion with
  | .lt => true
  | .gt => false
  | .eq =>
    match compare a.stateName b.stateName with
    | .gt => false
    | _ => true

/-- The allocation-relevant slice of renderChart (lines 197-225): build the
entry list from the selected bucket, return early (`none`, the "no data"
branch at lines 211-215) when it is empty, otherwise sort and allocate
WAVE_COUNT waves. -/
def renderChartCounts (bucket : List (String × NormState)) (fuel : Nat) :
    Option (List (String × Int)) :=
  let entries := bucket.map (fun p => Entry.mk p.1 p.2.stateName p.2.subregion p.2.share)
  if entries.isEmpty then none
  else distributeWaves (sortLe entryLe entries) WAVE_COUNT fuel

/-! ### Derived definitions used by the statements and proofs -/

/-- Composite lookup of one state aggregate. -/
def lookupAgg (m : List (YCKey × List (String × StateAgg))) (y c : Int) (sc : String) :
    Option StateAgg :=
  (lookupP m (y, c)).bind (fun b => lookupP b sc)

/-- The record carries the (year, class, state) key. -/
def isMatch (d : RawRecord) (y c : Int) (sc : String) : Bool :=
  decide (d.year = y) && decide (d.class_num = c) && decide (d.state_code = sc)

/-- Records of the input carrying a given (year, class, state) key, in
input order. -/
def matchRecords (raw : List RawRecord) (y c : Int) (sc : String) : List RawRecord :=
  raw.filter (fun d => isMatch d y c sc)

/-- rawSum of the aggregate at a key, defaulting to 0 for an absent key. -/
def rawSumD (raw : List RawRecord) (y c : Int) (sc : String) : Rat :=
  ((lookupAgg (aggRaw raw) y c sc).map (fun a => a.rawSum)).getD 0

/-- Abstract per-key effect of one record: create the accumulator if
needed, then apply the mutations of lines 78-80. -/
def accStep (o : Option StateAgg) (d : RawRecord) : Option StateAgg :=
  some (mutAgg (o.getD (initAgg d)) d)

/-- The part of an item the loop never changes: state code and share. -/
def projI (it : Item) : String × Rat := (it.stateCode, it.share)

/-- Sum of the counts of a working list. -/
def sumC (l : List Item) : Int := (l.map (fun it => it.count)).sum

/-- Count of items with positive share. -/
def nzI (l : List Item) : Nat := l.countP (fun it => decide (0 < it.share))

/-- Count of entries with positive share ("countNonzero" of the spec). -/
def nzE (entries : List Entry) : Nat := entries.countP (fun e => decide (0 < e.share))

/-- Invariant of every working item: share nonnegative, zero share keeps
count 0, positive share keeps count at least 1. -/
def goodItem (it : Item) : Prop :=
  0 ≤ it.share ∧ (it.share = 0 → it.count = 0) ∧ (0 < it.share → 1 ≤ it.count)

/-- The item under the cursor makes progress at the current delta. -/
def actItem (delta : Int) (it : Item) : Prop :=
  0 < it.share ∧ (0 < delta ∨ 1 < it.count)

/-! ### Concrete inputs used by witnesses and counterexamples -/

/-- Two entries of share one half each: with budget 10 this is example 1
of the spec scaled to two states; with budget 1 it is infeasible. -/
def entryA : Entry := ⟨"A", "State A", "Sub", 1/2⟩

/-- Companion entry of `entryA`. -/
def entryB : Entry := ⟨"B", "State B", "Sub", 1/2⟩

/-- A single entry whose share is zero. -/
def zeroEntry : Entry := ⟨"Z", "State Z", "Sub", 0⟩

/-- A Fiji record of (2022, class 1) with contribution 2. -/
def recFJ1 : RawRecord := ⟨2022, 1, "FJ", "Fiji", "Melanesia", 2, 4, 5⟩

/-- A second Fiji record of the same key with contribution 3 and
different rank and missing values. -/
def recFJ2 : RawRecord := ⟨2022, 1, "FJ", "Fiji", "Melanesia", 3, 7, 9⟩

/-- A Fiji record whose contribution is 0: its bucket is nonempty with
total 0. -/
def recFJ0 : RawRecord := ⟨2022, 1, "FJ", "Fiji", "Melanesia", 0, 6, 0⟩

/-- A Tonga record of (2020, class 3). -/
def recTO : RawRecord := ⟨2020, 3, "TO", "Tonga", "Polynesia", 5, 1, 0⟩

/-! ### Characterization of the first aggregation pass -/

/-- Effect on lookups of upserting one record into a state bucket. -/
theorem lookupP_bucketUpd (b : List (String × StateAgg)) (d : RawRecord) (sc : String) :
    lookupP (bucketUpd b d) sc =
      if sc = d.state_code then some (mutAgg ((lookupP b sc).getD (initAgg d)) d)
      else lookupP b sc := by
  induction b with
  | nil =>
    by_cases hq : sc = d.state_code <;> simp [bucketUpd, lookupP, hq]
  | cons hd tl ih =>
    obtain ⟨k, a⟩ := hd
    simp only [bucketUpd]
    by_cases hk : k = d.state_code
    · simp only [if_pos hk]
      by_cases hq : sc = k
      · rw [hq, hk]
        simp [lookupP]
      · have hq' : ¬ sc = d.state_code := by
          rw [← hk]; exact hq
        simp [lookupP, hq, hq']
    · simp only [if_neg hk]
      by_cases hq : sc = k
      · have hq' : ¬ sc = d.state_code := by
          rw [hq]; exact hk
        simp [lookupP, hq, hq', hk]
      · simp [lookupP, hq, ih]

/-- Effect on lookups of upserting one record into the (year, class) map. -/
theorem lookupP_aggStep (m : List (YCKey × List (String × StateAgg))) (d : RawRecord)
    (k : YCKey) :
    lookupP (aggStep m d) k =
      if k = (d.year, d.class_num) then some (bucketUpd ((lookupP m k).getD []) d)
      else lookupP m k := by
  induction m with
  | nil =>
    by_cases hq : k = (d.year, d.class_num) <;> simp [aggStep, lookupP, hq]
  | cons hd tl ih =>
    obtain ⟨k', b⟩ := hd
    simp only [aggStep]
    by_cases hk : k' = (d.year, d.class_num)
    · simp only [if_pos hk]
      by_cases hq : k = k'
      · rw [hq, hk]
        simp [lookupP]
      · have hq' : ¬ k = (d.year, d.class_num) := by
          rw [← hk]; exact hq
        simp [lookupP, hq, hq']
    · simp only [if_neg hk]
      by_cases hq : k = k'
      · have hq' : ¬ k = (d.year, d.class_num) := by
          rw [hq]; exact hk
        simp [lookupP, hq, hq', hk]
      · simp [lookupP, hq, ih]

theorem isMatch_iff (d : RawRecord) (y c : Int) (sc : String) :
    isMatch d y c sc = true ↔ d.year = y ∧ d.class_num = c ∧ d.state_code = sc := by
  simp [isMatch, Bool.and_eq_true, and_assoc]

/-- One aggregation step only touches the aggregate keyed by the record. -/
theorem lookupAgg_aggStep (m : List (YCKey × List (String × StateAgg))) (d : RawRecord)
    (y c : Int) (sc : String) :
    lookupAgg (aggStep m d) y c sc =
      if isMatch d y c sc then accStep (lookupAgg m y c sc) d
      else lookupAgg m y c sc := by
  rw [lookupAgg, lookupAgg, lookupP_aggStep]
  by_cases hkey : (y, c) = (d.year, d.class_num)
  · have hyc : y = d.year ∧ c = d.class_num := Prod.mk.injEq .. ▸ Prod.ext_iff.mp hkey
    rw [if_pos hkey, Option.some_bind, lookupP_bucketUpd]
    by_cases hsc : sc = d.state_code
    · have hm : isMatch d y c sc = true :=
        (isMatch_iff d y c sc).mpr ⟨hyc.1.symm, hyc.2.symm, hsc.symm⟩
      rw [if_pos hsc, hm]
      cases h : lookupP m (y, c) <;> simp [lookupP, accStep]
    · have hm : isMatch d y c sc = false := by
        rw [Bool.eq_false_iff]
        intro hcon
        exact hsc ((isMatch_iff d y c sc).mp hcon).2.2.symm
      rw [if_neg hsc, hm]
      cases h : lookupP m (y, c) <;> simp [lookupP]
  · have hm : isMatch d y c sc = false := by
      rw [Bool.eq_false_iff]
      intro hcon
      obtain ⟨h1, h2, _⟩ := (isMatch_iff d y c sc).mp hcon
      exact hkey (by rw [h1, h2])
    rw [if_neg hkey, hm]
    simp

/-- Folding the whole input acts, per key, as folding just the matching
records. -/
theorem lookupAgg_foldl (raw : List RawRecord) :
    ∀ (m : List (YCKey × List (String × StateAgg))) (y c : Int) (sc : String),
      lookupAgg (raw.foldl aggStep m) y c sc =
        (matchRecords raw y c sc).foldl accStep (lookupAgg m y c sc) := by
  induction raw with
  | nil => intro m y c sc; simp [matchRecords]
  | cons d t ih =>
    intro m y c sc
    simp only [List.foldl_cons]
    rw [ih]
    by_cases hm : isMatch d y c sc <;>
      simp [matchRecords, List.filter_cons, hm, lookupAgg_aggStep]

/-- Characterization of the aggregate at a key: it is the fold of the
matching records in input order. -/
theorem lookupAgg_aggRaw (raw : List RawRecord) (y c : Int) (sc : String) :
    lookupAgg (aggRaw raw) y c sc = (matchRecords raw y c sc).foldl accStep none := by
  have h := lookupAgg_foldl raw [] y c sc
  simpa [aggRaw, lookupAgg, lookupP] using h

theorem foldl_accStep_some (ms : List RawRecord) :
    ∀ a : StateAgg, ∃ b, ms.foldl accStep (some a) = some b := by
  induction ms with
  | nil => exact fun a => ⟨a, rfl⟩
  | cons d t ih =>
    intro a
    simpa [accStep] using ih (mutAgg a d)

theorem foldl_accStep_eq_none (ms : List RawRecord)
    (h : ms.foldl accStep none = none) : ms = [] := by
  cases ms with
  | nil => rfl
  | cons d t =>
    simp only [List.foldl_cons] at h
    obtain ⟨b, hb⟩ := foldl_accStep_some t (mutAgg (initAgg d) d)
    have hs : accStep none d = some (mutAgg (initAgg d) d) := rfl
    rw [hs, hb] at h
    cases h

/-- Folding records onto an accumulator adds exactly the sum of their
contributions to the rawSum. -/
theorem foldl_accStep_rawSum (ms : List RawRecord) :
    ∀ o : Option StateAgg,
      ((ms.foldl accStep o).map (fun a => a.rawSum)).getD 0 =
        ((o.map (fun a => a.rawSum)).getD 0) +
          (ms.map (fun d => d.value_contribution_to_class)).sum := by
  induction ms with
  | nil => intro o; simp
  | cons d t ih =>
    intro o
    simp only [List.foldl_cons, List.map_cons, List.sum_cons]
    rw [ih]
    cases o <;> simp [accStep, mutAgg, initAgg] <;> ring

/-- The last folded record wins on rank and missing. -/
theorem foldl_accStep_last (ms : List RawRecord) (dl : RawRecord)
    (h : ms.getLast? = some dl) (o : Option StateAgg) :
    ∃ b, ms.foldl accStep o = some b ∧
      b.rank = dl.state_rank_per_class ∧ b.missing = dl.pct_missing_values := by
  induction ms using List.reverseRecOn with
  | nil => cases h
  | append_singleton t d _ =>
    rw [List.getLast?_concat] at h
    obtain rfl : d = dl := by injection h
    rw [List.foldl_append]
    exact ⟨_, rfl, rfl, rfl⟩

/-- C8: in every (year, class, state) aggregate, rank and missing are the
values of the last matching record in input order, and rawSum is the sum
of the matching contributions. -/
theorem C8_last_write_wins (raw : List RawRecord) (y c : Int) (sc : String)
    (a : StateAgg) (h : lookupAgg (aggRaw raw) y c sc = some a) :
    a.rawSum = ((matchRecords raw y c sc).map (fun d => d.value_contribution_to_class)).sum ∧
    ∀ dl, (matchRecords raw y c sc).getLast? = some dl →
      a.rank = dl.state_rank_per_class ∧ a.missing = dl.pct_missing_values := by
  rw [lookupAgg_aggRaw] at h
  constructor
  · have hs := foldl_accStep_rawSum (matchRecords raw y c sc) none
    rw [h] at hs
    simpa using hs
  · intro dl hdl
    obtain ⟨b, hb, hr, hm⟩ := foldl_accStep_last _ dl hdl none
    rw [h] at hb
    obtain rfl : a = b := by injection hb
    exact ⟨hr, hm⟩

/-- The defaulted rawSum at a key is the plain sum of the matching
contributions. -/
theorem rawSumD_eq_sum (raw : List RawRecord) (y c : Int) (sc : String) :
    rawSumD raw y c sc =
      ((matchRecords raw y c sc).map (fun d => d.value_contribution_to_class)).sum := by
  rw [rawSumD, lookupAgg_aggRaw]
  simpa using foldl_accStep_rawSum (matchRecords raw y c sc) none

/-- Lookup commutes with a value-only map of an association list. -/
theorem lookupP_map_val {κ β γ : Type} [DecidableEq κ] (g : β → γ) (l : List (κ × β)) (k : κ) :
    lookupP (l.map (fun p => (p.1, g p.2))) k = (lookupP l k).map g := by
  induction l with
  | nil => rfl
  | cons hd tl ih =>
    obtain ⟨k', v⟩ := hd
    by_cases h : k = k' <;> simp [lookupP, h, ih]

/-! ### Normalization: share sums, zero totals, zero shares -/

theorem bucketTotal_foldl (sts : List (String × StateAgg)) :
    ∀ q : Rat, sts.foldl (fun s p => s + p.2.rawSum) q =
      q + (sts.map (fun p => p.2.rawSum)).sum := by
  induction sts with
  | nil => intro q; simp
  | cons hd tl ih =>
    intro q
    simp only [List.foldl_cons, List.map_cons, List.sum_cons, ih]
    ring

theorem bucketTotal_eq_sum (sts : List (String × StateAgg)) :
    bucketTotal sts = (sts.map (fun p => p.2.rawSum)).sum := by
  simpa using bucketTotal_foldl sts 0

theorem sum_map_div (xs : List Rat) (q : Rat) :
    (xs.map (fun x => x / q)).sum = xs.sum / q := by
  induction xs with
  | nil => simp
  | cons x t ih => simp [ih, add_div]

/-- C6: aggregation is additive under splitting the input into a prefix
and a suffix: per (year, class, state) key the rawSum of the whole input
is the sum of the rawSums of the two parts; and a state whose rawSum is 0
gets share 0 in the normalized bucket. -/
theorem C6_aggregation_additive :
    (∀ (p s : List RawRecord) (y c : Int) (sc : String),
        rawSumD (p ++ s) y c sc = rawSumD p y c sc + rawSumD s y c sc) ∧
    (∀ (raw : List RawRecord) (y c : Int) (nb : List (String × NormState))
        (sc : String) (ns : NormState),
        lookupP (aggregateAndNormalize raw).byYearClass (y, c) = some nb →
        lookupP nb sc = some ns →
        rawSumD raw y c sc = 0 → ns.share = 0) := by
  constructor
  · intro p s y c sc
    simp [rawSumD_eq_sum, matchRecords, List.filter_append]
  · intro raw y c nb sc ns h1 h2 h0
    have h1' : (lookupP (aggRaw raw) (y, c)).map normalizeBucket = some nb := by
      rw [← lookupP_map_val normalizeBucket (aggRaw raw) (y, c)]
      exact h1
    obtain ⟨sts, hsts, rfl⟩ := Option.map_eq_some'.mp h1'
    rw [normalizeBucket, lookupP_map_val] at h2
    obtain ⟨a, ha, rfl⟩ := Option.map_eq_some'.mp h2
    have hraw : rawSumD raw y c sc = a.rawSum := by
      rw [rawSumD, lookupAgg, hsts, Option.some_bind, ha]
      rfl
    rw [hraw] at h0
    simp [normFun, h0]

/-- C5 (amended): every bucket of aggregateAndNormalize whose
pre-normalization total is nonzero has shares that sum to exactly 1. -/
theorem C5_share_sum_amended (raw : List RawRecord) (y c : Int)
    (sts : List (String × StateAgg))
    (hsts : lookupP (aggRaw raw) (y, c) = some sts)
    (htot : (sts.map (fun p => p.2.rawSum)).sum ≠ 0) :
    lookupP (aggregateAndNormalize raw).byYearClass (y, c) = some (normalizeBucket sts) ∧
    ((normalizeBucket sts).map (fun q => q.2.share)).sum = 1 := by
  constructor
  · rw [aggregateAndNormalize]
    simp only [lookupP_map_val, hsts]
    rfl
  · have hdiv : bucketDivisor sts = (sts.map (fun p => p.2.rawSum)).sum := by
      rw [bucketDivisor, bucketTotal_eq_sum, if_neg htot]
    have hshare : (normalizeBucket sts).map (fun q => q.2.share) =
        (sts.map (fun p => p.2.rawSum)).map (fun x => x / bucketDivisor sts) := by
      simp [normalizeBucket, normFun, List.map_map, Function.comp]
    rw [hshare, sum_map_div, hdiv, div_self htot]

theorem lookupP_mem {κ β : Type} [DecidableEq κ] (l : List (κ × β)) (k : κ) (v : β)
    (h : lookupP l k = some v) : (k, v) ∈ l := by
  induction l with
  | nil => cases h
  | cons hd tl ih =>
    obtain ⟨k', v'⟩ := hd
    by_cases hk : k = k'
    · rw [lookupP, if_pos hk] at h
      obtain rfl : v' = v := by injection h
      rw [hk]
      exact List.mem_cons_self _ _
    · rw [lookupP, if_neg hk] at h
      exact List.mem_cons_of_mem _ (ih h)

theorem bucketUpd_rawSum_nonneg (d : RawRecord)
    (hd : 0 ≤ d.value_contribution_to_class) (b : List (String × StateAgg))
    (hb : ∀ p ∈ b, 0 ≤ p.2.rawSum) : ∀ p ∈ bucketUpd b d, 0 ≤ p.2.rawSum := by
  induction b with
  | nil =>
    intro p hp
    rw [bucketUpd, List.mem_singleton] at hp
    rw [hp]
    simpa [mutAgg, initAgg] using hd
  | cons hd' tl ih =>
    obtain ⟨k, a⟩ := hd'
    intro p hp
    rw [bucketUpd] at hp
    by_cases hk : k = d.state_code
    · rw [if_pos hk, List.mem_cons] at hp
      rcases hp with rfl | hp
      · have ha : 0 ≤ a.rawSum := hb (k, a) (List.mem_cons_self _ _)
        simp only [mutAgg]
        have : (0 : Rat) ≤ a.rawSum + d.value_contribution_to_class := by linarith
        simpa using this
      · exact hb p (List.mem_cons_of_mem _ hp)
    · rw [if_neg hk, List.mem_cons] at hp
      rcases hp with rfl | hp
      · exact hb (k, a) (List.mem_cons_self _ _)
      · exact ih (fun q hq => hb q (List.mem_cons_of_mem _ hq)) p hp

theorem aggStep_rawSum_nonneg (d : RawRecord)
    (hd : 0 ≤ d.value_contribution_to_class)
    (m : List (YCKey × List (String × StateAgg)))
    (hm : ∀ q ∈ m, ∀ p ∈ q.2, 0 ≤ p.2.rawSum) :
    ∀ q ∈ aggStep m d, ∀ p ∈ q.2, 0 ≤ p.2.rawSum := by
  induction m with
  | nil =>
    intro q hq
    rw [aggStep, List.mem_singleton] at hq
    rw [hq]
    exact bucketUpd_rawSum_nonneg d hd [] (by simp)
  | cons hd' tl ih =>
    obtain ⟨k, b⟩ := hd'
    intro q hq
    rw [aggStep] at hq
    by_cases hk : k = (d.year, d.class_num)
    · rw [if_pos hk, List.mem_cons] at hq
      rcases hq with rfl | hq
      · exact bucketUpd_rawSum_nonneg d hd b (hm (k, b) (List.mem_cons_self _ _))
      · exact hm q (List.mem_cons_of_mem _ hq)
    · rw [if_neg hk, List.mem_cons] at hq
      rcases hq with rfl | hq
      · exact hm (k, b) (List.mem_cons_self _ _)
      · exact ih (fun q' hq' => hm q' (List.mem_cons_of_mem _ hq')) q hq

theorem aggRaw_rawSum_nonneg (raw : List RawRecord)
    (h : ∀ d ∈ raw, 0 ≤ d.value_contribution_to_class) :
    ∀ q ∈ aggRaw raw, ∀ p ∈ q.2, 0 ≤ p.2.rawSum := by
  rw [aggRaw]
  have hgen : ∀ (l : List RawRecord) (m : List (YCKey × List (String × StateAgg))),
      (∀ d ∈ l, 0 ≤ d.value_contribution_to_class) →
      (∀ q ∈ m, ∀ p ∈ q.2, 0 ≤ p.2.rawSum) →
      ∀ q ∈ l.foldl aggStep m, ∀ p ∈ q.2, 0 ≤ p.2.rawSum := by
    intro l
    induction l with
    | nil => intro m _ hm; simpa using hm
    | cons d t ih =>
      intro m hl hm
      simp only [List.foldl_cons]
      exact ih (aggStep m d) (fun d' hd' => hl d' (List.mem_cons_of_mem _ hd'))
        (aggStep_rawSum_nonneg d (hl d (List.mem_cons_self _ _)) m hm)
  exact hgen raw [] h (by simp)

theorem all_zero_of_sum_zero (xs : List Rat) (h0 : ∀ x ∈ xs, 0 ≤ x)
    (hs : xs.sum = 0) : ∀ x ∈ xs, x = 0 := by
  induction xs with
  | nil => simp
  | cons x t ih =>
    have hx : 0 ≤ x := h0 x (List.mem_cons_self _ _)
    have ht : 0 ≤ t.sum := List.sum_nonneg (fun y hy => h0 y (List.mem_cons_of_mem _ hy))
    rw [List.sum_cons] at hs
    have hx0 : x = 0 := by linarith
    have hts : t.sum = 0 := by linarith
    intro y hy
    rcases List.mem_cons.mp hy with rfl | hy'
    · exact hx0
    · exact ih (fun z hz => h0 z (List.mem_cons_of_mem _ hz)) hts y hy'

/-- C9: when the rawSum values of a bucket total 0 (with the nonnegative
contributions promised by the data model), the divisor falls back to 1,
the bucket is still a defined entry of byYearClass, and every state in it
has share 0. -/
theorem C9_zero_total_guard (raw : List RawRecord) (y c : Int)
    (sts : List (String × StateAgg))
    (hval : ∀ d ∈ raw, 0 ≤ d.value_contribution_to_class)
    (hsts : lookupP (aggRaw raw) (y, c) = some sts)
    (hz : (sts.map (fun p => p.2.rawSum)).sum = 0) :
    bucketDivisor sts = 1 ∧
    lookupP (aggregateAndNormalize raw).byYearClass (y, c) = some (normalizeBucket sts) ∧
    ∀ q ∈ normalizeBucket sts, q.2.share = 0 := by
  refine ⟨?_, ?_, ?_⟩
  · rw [bucketDivisor, bucketTotal_eq_sum, if_pos hz]
  · rw [aggregateAndNormalize]
    simp only [lookupP_map_val, hsts]
    rfl
  · intro q hq
    obtain ⟨p, hp, rfl⟩ := List.mem_map.mp hq
    have hnn : ∀ pp ∈ sts, 0 ≤ pp.2.rawSum :=
      aggRaw_rawSum_nonneg raw hval ((y, c), sts) (lookupP_mem _ _ _ hsts)
    have hz' : p.2.rawSum = 0 := by
      refine all_zero_of_sum_zero _ ?_ hz _ (List.mem_map_of_mem _ hp)
      intro x hx
      obtain ⟨pp, hpp, rfl⟩ := List.mem_map.mp hx
      exact hnn pp hpp
    simp [normFun, hz']

/-! ### Years and classes: distinct, sorted, order independent -/

theorem mem_setAdd {α : Type} [DecidableEq α] (s : List α) (x y : α) :
    y ∈ setAdd s x ↔ y ∈ s ∨ y = x := by
  by_cases h : x ∈ s
  · rw [setAdd, if_pos h]
    constructor
    · exact Or.inl
    · rintro (hy | rfl)
      · exact hy
      · exact h
  · rw [setAdd, if_neg h]
    simp [List.mem_append]

theorem nodup_setAdd {α : Type} [DecidableEq α] (s : List α) (x : α) (h : s.Nodup) :
    (setAdd s x).Nodup := by
  by_cases hx : x ∈ s
  · rwa [setAdd, if_pos hx]
  · rw [setAdd, if_neg hx]
    simp [List.nodup_append, h, hx]

theorem mem_foldl_setAdd (f : RawRecord → Int) (raw : List RawRecord) :
    ∀ (acc : List Int) (y : Int),
      y ∈ raw.foldl (fun s d => setAdd s (f d)) acc ↔ y ∈ acc ∨ ∃ d ∈ raw, f d = y := by
  induction raw with
  | nil => intro acc y; simp
  | cons d t ih =>
    intro acc y
    simp only [List.foldl_cons]
    rw [ih, mem_setAdd]
    constructor
    · rintro ((hy | rfl) | ⟨d', hd', rfl⟩)
      · exact Or.inl hy
      · exact Or.inr ⟨d, List.mem_cons_self _ _, rfl⟩
      · exact Or.inr ⟨d', List.mem_cons_of_mem _ hd', rfl⟩
    · rintro (hy | ⟨d', hd', rfl⟩)
      · exact Or.inl (Or.inl hy)
      · rcases List.mem_cons.mp hd' with rfl | hd''
        · exact Or.inl (Or.inr rfl)
        · exact Or.inr ⟨d', hd'', rfl⟩

theorem nodup_foldl_setAdd (f : RawRecord → Int) (raw : List RawRecord) :
    ∀ acc : List Int, acc.Nodup → (raw.foldl (fun s d => setAdd s (f d)) acc).Nodup := by
  induction raw with
  | nil => intro acc h; simpa using h
  | cons d t ih =>
    intro acc h
    simp only [List.foldl_cons]
    exact ih _ (nodup_setAdd _ _ h)

theorem insertLe_perm {α : Type} (le : α → α → Bool) (x : α) (l : List α) :
    (insertLe le x l).Perm (x :: l) := by
  induction l with
  | nil => exact List.Perm.refl _
  | cons y ys ih =>
    rw [insertLe]
    by_cases h : le x y
    · rw [if_pos h]
    · rw [if_neg h]
      exact (List.Perm.cons y ih).trans (List.Perm.swap x y ys)

theorem sortLe_perm {α : Type} (le : α → α → Bool) (l : List α) : (sortLe le l).Perm l := by
  induction l with
  | nil => exact List.Perm.refl _
  | cons x t ih =>
    exact (insertLe_perm le x (sortLe le t)).trans (List.Perm.cons x ih)

theorem pairwise_insertLe {α : Type} (le : α → α → Bool)
    (htot : ∀ a b, le a b = false → le b a = true)
    (htr : ∀ a b c, le a b = true → le b c = true → le a c = true)
    (x : α) (l : List α) (h : l.Pairwise (fun a b => le a b = true)) :
    (insertLe le x l).Pairwise (fun a b => le a b = true) := by
  induction l with
  | nil => simp [insertLe]
  | cons y ys ih =>
    rw [insertLe]
    rcases List.pairwise_cons.mp h with ⟨hy, hys⟩
    by_cases hxy : le x y
    · rw [if_pos hxy]
      refine List.pairwise_cons.mpr ⟨?_, h⟩
      intro z hz
      rcases List.mem_cons.mp hz with rfl | hz'
      · exact hxy
      · exact htr x y z hxy (hy z hz')
    · rw [if_neg hxy]
      refine List.pairwise_cons.mpr ⟨?_, ih hys⟩
      intro z hz
      rcases List.mem_cons.mp ((insertLe_perm le x ys).mem_iff.mp hz) with heq | hz'
      · rw [heq]
        exact htot x y (Bool.not_eq_true _ ▸ hxy)
      · exact hy z hz'

theorem pairwise_sortLe {α : Type} (le : α → α → Bool)
    (htot : ∀ a b, le a b = false → le b a = true)
    (htr : ∀ a b c, le a b = true → le b c = true → le a c = true)
    (l : List α) : (sortLe le l).Pairwise (fun a b => le a b = true) := by
  induction l with
  | nil => exact List.Pairwise.nil
  | cons x t ih => exact pairwise_insertLe le htot htr x (sortLe le t) ih

theorem sortInt_perm (l : List Int) : (sortInt l).Perm l := sortLe_perm _ l

theorem sortInt_sorted_lt (l : List Int) (h : l.Nodup) :
    (sortInt l).Pairwise (· < ·) := by
  have hle : (sortInt l).Pairwise (fun a b : Int => decide (a ≤ b) = true) := by
    refine pairwise_sortLe _ ?_ ?_ l
    · intro a b hab
      simp only [decide_eq_false_iff_not, not_le] at hab
      simpa using le_of_lt hab
    · intro a b c h1 h2
      simp only [decide_eq_true_eq] at h1 h2
      simpa using le_trans h1 h2
  have hne : (sortInt l).Pairwise (· ≠ ·) := (sortInt_perm l).nodup_iff.mpr h
  refine (hle.and hne).imp ?_
  intro a b hab
  obtain ⟨h1, h2⟩ := hab
  simp only [decide_eq_true_eq] at h1
  exact lt_of_le_of_ne h1 h2

theorem eq_of_sorted_lt_mem_iff :
    ∀ (l₁ l₂ : List Int), l₁.Pairwise (· < ·) → l₂.Pairwise (· < ·) →
      (∀ x, x ∈ l₁ ↔ x ∈ l₂) → l₁ = l₂ := by
  intro l₁
  induction l₁ with
  | nil =>
    intro l₂ _ _ hmem
    cases l₂ with
    | nil => rfl
    | cons b t₂ => exact absurd ((hmem b).mpr (List.mem_cons_self _ _)) (by simp)
  | cons a t₁ ih =>
    intro l₂ h₁ h₂ hmem
    cases l₂ with
    | nil => exact absurd ((hmem a).mp (List.mem_cons_self _ _)) (by simp)
    | cons b t₂ =>
      obtain ⟨ha1, ht₁⟩ := List.pairwise_cons.mp h₁
      obtain ⟨hb2, ht₂⟩ := List.pairwise_cons.mp h₂
      have hab : a = b := by
        rcases List.mem_cons.mp ((hmem a).mp (List.mem_cons_self _ _)) with h | h
        · exact h
        · rcases List.mem_cons.mp ((hmem b).mpr (List.mem_cons_self _ _)) with h' | h'
          · exact h'.symm
          · have hba := hb2 a h
            have hab2 := ha1 b h'
            omega
      subst hab
      have htmem : ∀ x, x ∈ t₁ ↔ x ∈ t₂ := by
        intro x
        constructor
        · intro hx
          have hax : a < x := ha1 x hx
          rcases List.mem_cons.mp ((hmem x).mp (List.mem_cons_of_mem _ hx)) with rfl | h
          · omega
          · exact h
        · intro hx
          have hax : a < x := hb2 x hx
          rcases List.mem_cons.mp ((hmem x).mpr (List.mem_cons_of_mem _ hx)) with rfl | h
          · omega
          · exact h
      rw [ih t₂ ht₁ ht₂ htmem]

theorem sortInt_foldl_spec (f : RawRecord → Int) (raw : List RawRecord) :
    (sortInt (raw.foldl (fun s d => setAdd s (f d)) [])).Pairwise (· < ·) ∧
    (∀ y, y ∈ sortInt (raw.foldl (fun s d => setAdd s (f d)) []) ↔ ∃ d ∈ raw, f d = y) := by
  have hnd : (raw.foldl (fun s d => setAdd s (f d)) []).Nodup :=
    nodup_foldl_setAdd f raw [] (by simp)
  refine ⟨sortInt_sorted_lt _ hnd, ?_⟩
  intro y
  rw [(sortInt_perm _).mem_iff, mem_foldl_setAdd]
  simp

/-- C7: `years` and `classes` are exactly the distinct year and class
values occurring in the input, strictly ascending, and equal for any two
inputs that are permutations of each other. -/
theorem C7_years_classes (raw : List RawRecord) :
    (aggregateAndNormalize raw).years.Pairwise (· < ·) ∧
    (∀ y, y ∈ (aggregateAndNormalize raw).years ↔ ∃ d ∈ raw, d.year = y) ∧
    (aggregateAndNormalize raw).classes.Pairwise (· < ·) ∧
    (∀ cn, cn ∈ (aggregateAndNormalize raw).classes ↔ ∃ d ∈ raw, d.class_num = cn) ∧
    ∀ raw₂ : List RawRecord, raw.Perm raw₂ →
      (aggregateAndNormalize raw).years = (aggregateAndNormalize raw₂).years ∧
      (aggregateAndNormalize raw).classes = (aggregateAndNormalize raw₂).classes := by
  have hy := sortInt_foldl_spec (fun d => d.year) raw
  have hc := sortInt_foldl_spec (fun d => d.class_num) raw
  refine ⟨hy.1, hy.2, hc.1, hc.2, ?_⟩
  intro raw₂ hp
  have hinv : ∀ f : RawRecord → Int,
      sortInt (raw.foldl (fun s d => setAdd s (f d)) []) =
        sortInt (raw₂.foldl (fun s d => setAdd s (f d)) []) := by
    intro f
    refine eq_of_sorted_lt_mem_iff _ _ (sortInt_foldl_spec f raw).1
      (sortInt_foldl_spec f raw₂).1 ?_
    intro x
    rw [(sortInt_foldl_spec f raw).2 x, (sortInt_foldl_spec f raw₂).2 x]
    constructor
    · rintro ⟨d, hd, he⟩
      exact ⟨d, hp.subset hd, he⟩
    · rintro ⟨d, hd, he⟩
      exact ⟨d, hp.symm.subset hd, he⟩
  exact ⟨hinv (fun d => d.year), hinv (fun d => d.class_num)⟩

/-! ### Allocator: invariants of the redistribution loop -/

theorem set_get_self {α : Type} : ∀ (l : List α) (i : Nat) (a : α),
    l.get? i = some a → l.set i a = l := by
  intro l
  induction l with
  | nil => intro i a h; cases h
  | cons x t ih =>
    intro i a h
    cases i with
    | zero =>
      obtain rfl : x = a := by simpa using h
      rfl
    | succ n =>
      have h' : t.get? n = some a := by simpa using h
      simp [List.set, ih n a h']

theorem map_set_eq {α β : Type} (f : α → β) : ∀ (l : List α) (i : Nat) (a : α),
    (l.set i a).map f = (l.map f).set i (f a) := by
  intro l
  induction l with
  | nil => intro i a; rfl
  | cons x t ih =>
    intro i a
    cases i with
    | zero => rfl
    | succ n => simp [List.set, ih n a]

theorem sumC_set : ∀ (l : List Item) (i : Nat) (a b : Item),
    l.get? i = some b → sumC (l.set i a) = sumC l + a.count - b.count := by
  intro l
  induction l with
  | nil => intro i a b h; cases h
  | cons x t ih =>
    intro i a b h
    cases i with
    | zero =>
      obtain rfl : x = b := by simpa using h
      simp only [List.set, sumC, List.map_cons, List.sum_cons]
      ring
    | succ n =>
      have h' : t.get? n = some b := by simpa using h
      simp only [List.set, sumC, List.map_cons, List.sum_cons] at *
      rw [ih n a b h']
      ring

theorem stepItem_count_delta (delta : Int) (it : Item) :
    (stepItem delta it).1.count + (stepItem delta it).2 = it.count + delta := by
  rw [stepItem]
  by_cases h1 : it.share = 0
  · rw [if_pos h1]
  · rw [if_neg h1]
    by_cases h2 : 0 < delta
    · rw [if_pos h2]
      show it.count + 1 + (delta - 1) = it.count + delta
      ring
    · rw [if_neg h2]
      by_cases h3 : 1 < it.count
      · rw [if_pos h3]
        show it.count - 1 + (delta + 1) = it.count + delta
        ring
      · rw [if_neg h3]

theorem stepItem_proj (delta : Int) (it : Item) :
    projI (stepItem delta it).1 = projI it := by
  rw [stepItem]
  by_cases h1 : it.share = 0
  · rw [if_pos h1]
  · rw [if_neg h1]
    by_cases h2 : 0 < delta
    · rw [if_pos h2]
      rfl
    · rw [if_neg h2]
      by_cases h3 : 1 < it.count
      · rw [if_pos h3]
        rfl
      · rw [if_neg h3]

theorem stepItem_share (delta : Int) (it : Item) :
    (stepItem delta it).1.share = it.share :=
  congrArg Prod.snd (stepItem_proj delta it)

theorem stepItem_good (delta : Int) (it : Item) (h : goodItem it) :
    goodItem (stepItem delta it).1 := by
  obtain ⟨hs, hz, hp⟩ := h
  rw [stepItem]
  by_cases h1 : it.share = 0
  · rw [if_pos h1]
    exact ⟨hs, hz, hp⟩
  · rw [if_neg h1]
    by_cases h2 : 0 < delta
    · rw [if_pos h2]
      refine ⟨hs, fun hc => absurd hc h1, fun hsp => ?_⟩
      have := hp hsp
      show (1 : Int) ≤ it.count + 1
      omega
    · rw [if_neg h2]
      by_cases h3 : 1 < it.count
      · rw [if_pos h3]
        refine ⟨hs, fun hc => absurd hc h1, fun _ => ?_⟩
        show (1 : Int) ≤ it.count - 1
        omega
      · rw [if_neg h3]
        exact ⟨hs, hz, hp⟩

theorem distLoop_succ_zero (fuel : Nat) (l : List Item) (i : Nat) :
    distLoop (fuel + 1) l i 0 = some l := by
  rw [distLoop, if_pos rfl]

theorem distLoop_succ_none (fuel : Nat) (l : List Item) (i : Nat) (delta : Int)
    (hz : delta ≠ 0) (hg : l.get? i = none) :
    distLoop (fuel + 1) l i delta = none := by
  rw [distLoop, if_neg hz, hg]

theorem distLoop_succ_some (fuel : Nat) (l : List Item) (i : Nat) (delta : Int) (it : Item)
    (hz : delta ≠ 0) (hg : l.get? i = some it) :
    distLoop (fuel + 1) l i delta =
      distLoop fuel (l.set i (stepItem delta it).1) ((i + 1) % l.length)
        (stepItem delta it).2 := by
  rw [distLoop, if_neg hz, hg]

/-- Loop conservation: counts plus delta is invariant, so a returned list
sums to the initial sum plus the initial delta. -/
theorem distLoop_some_sum : ∀ (fuel : Nat) (l : List Item) (i : Nat) (delta : Int)
    (out : List Item), distLoop fuel l i delta = some out → sumC out = sumC l + delta := by
  intro fuel
  induction fuel with
  | zero => intro l i delta out h; cases h
  | succ n ih =>
    intro l i delta out h
    by_cases hz : delta = 0
    · rw [hz, distLoop_succ_zero] at h
      obtain rfl : l = out := by injection h
      omega
    · cases hg : l.get? i with
      | none => rw [distLoop_succ_none n l i delta hz hg] at h; cases h
      | some it =>
        rw [distLoop_succ_some n l i delta it hz hg] at h
        have hs := ih _ _ _ _ h
        rw [sumC_set l i _ it hg] at hs
        have hcd := stepItem_count_delta delta it
        omega

/-- Loop conservation: state codes and shares are never touched. -/
theorem distLoop_some_proj : ∀ (fuel : Nat) (l : List Item) (i : Nat) (delta : Int)
    (out : List Item), distLoop fuel l i delta = some out →
      out.map projI = l.map projI := by
  intro fuel
  induction fuel with
  | zero => intro l i delta out h; cases h
  | succ n ih =>
    intro l i delta out h
    by_cases hz : delta = 0
    · rw [hz, distLoop_succ_zero] at h
      obtain rfl : l = out := by injection h
      rfl
    · cases hg : l.get? i with
      | none => rw [distLoop_succ_none n l i delta hz hg] at h; cases h
      | some it =>
        rw [distLoop_succ_some n l i delta it hz hg] at h
        have hs := ih _ _ _ _ h
        rw [hs, map_set_eq projI l i _, stepItem_proj delta it]
        apply set_get_self
        rw [List.get?_map, hg]
        rfl

/-- Loop conservation: the per-item invariant is preserved. -/
theorem distLoop_some_good : ∀ (fuel : Nat) (l : List Item) (i : Nat) (delta : Int)
    (out : List Item), distLoop fuel l i delta = some out →
      (∀ it ∈ l, goodItem it) → ∀ it ∈ out, goodItem it := by
  intro fuel
  induction fuel with
  | zero => intro l i delta out h; cases h
  | succ n ih =>
    intro l i delta out h hgood
    by_cases hz : delta = 0
    · rw [hz, distLoop_succ_zero] at h
      obtain rfl : l = out := by injection h
      exact hgood
    · cases hg : l.get? i with
      | none => rw [distLoop_succ_none n l i delta hz hg] at h; cases h
      | some it =>
        rw [distLoop_succ_some n l i delta it hz hg] at h
        refine ih _ _ _ _ h ?_
        intro x hx
        rcases List.mem_or_eq_of_mem_set hx with hx' | rfl
        · exact hgood x hx'
        · exact stepItem_good delta it (hgood it (List.get?_mem hg))

/-- If the item under the cursor can never act (zero share, or negative
delta with count pinned at 1), the step is a no-op. -/
theorem stepItem_stuck (delta : Int) (it : Item)
    (h : it.share = 0 ∨ (delta < 0 ∧ it.count ≤ 1)) : stepItem delta it = (it, delta) := by
  rw [stepItem]
  by_cases h0 : it.share = 0
  · rw [if_pos h0]
  · rcases h with h0' | ⟨hneg, hle⟩
    · exact absurd h0' h0
    · rw [if_neg h0, if_neg (by omega), if_neg (by omega)]

/-- If every item of the list is permanently unable to act while delta is
nonzero, the loop never terminates: it returns none for every fuel. -/
theorem distLoop_stuck : ∀ (fuel : Nat) (l : List Item) (i : Nat) (delta : Int),
    delta ≠ 0 → (∀ it ∈ l, it.share = 0 ∨ (delta < 0 ∧ it.count ≤ 1)) →
    distLoop fuel l i delta = none := by
  intro fuel
  induction fuel with
  | zero => intro l i delta _ _; rfl
  | succ n ih =>
    intro l i delta hz hstuck
    cases hg : l.get? i with
    | none => exact distLoop_succ_none n l i delta hz hg
    | some it =>
      rw [distLoop_succ_some n l i delta it hz hg]
      rw [stepItem_stuck delta it (hstuck it (List.get?_mem hg))]
      show distLoop n (l.set i it) ((i + 1) % l.length) delta = none
      rw [set_get_self l i it hg]
      exact ih l _ delta hz hstuck

/-- distributeWaves unfolded to its loop. -/
theorem distributeWaves_eq (entries : List Entry) (totalWaves : Int) (fuel : Nat) :
    distributeWaves entries totalWaves fuel =
      (distLoop fuel (sortLe remGe (entries.map (mkItem totalWaves))) 0
          (totalWaves - sumC (entries.map (mkItem totalWaves)))).map
        (fun l => l.map (fun it => (it.stateCode, it.count))) := rfl

/-! ### Allocator: termination of the redistribution loop -/

theorem stepItem_act (delta : Int) (it : Item) (hz : delta ≠ 0) (ha : actItem delta it) :
    (stepItem delta it).2.natAbs + 1 = delta.natAbs := by
  obtain ⟨hs, hor⟩ := ha
  rw [stepItem, if_neg (ne_of_gt hs)]
  by_cases h2 : 0 < delta
  · rw [if_pos h2]
    show (delta - 1).natAbs + 1 = delta.natAbs
    omega
  · have h3 : 1 < it.count := by
      rcases hor with h | h
      · exact absurd h h2
      · exact h
    rw [if_neg h2, if_pos h3]
    show (delta + 1).natAbs + 1 = delta.natAbs
    omega

theorem stepItem_inact (delta : Int) (it : Item) (hs : 0 ≤ it.share)
    (h : ¬ actItem delta it) : stepItem delta it = (it, delta) := by
  rw [actItem] at h
  push_neg at h
  by_cases h0 : it.share = 0
  · exact stepItem_stuck delta it (Or.inl h0)
  · have hpos : 0 < it.share := lt_of_le_of_ne hs (Ne.symm h0)
    obtain ⟨hnd, hnc⟩ := h hpos
    rw [stepItem, if_neg h0, if_neg (not_lt.mpr hnd), if_neg (not_lt.mpr hnc)]

theorem distLoop_skip (fuel : Nat) (l : List Item) (i : Nat) (delta : Int) (it : Item)
    (hz : delta ≠ 0) (hg : l.get? i = some it) (hstep : stepItem delta it = (it, delta)) :
    distLoop (fuel + 1) l i delta = distLoop fuel l ((i + 1) % l.length) delta := by
  rw [distLoop_succ_some fuel l i delta it hz hg, hstep]
  show distLoop fuel (l.set i it) ((i + 1) % l.length) delta = _
  rw [set_get_self l i it hg]

theorem nzI_eq_of_proj_eq (l₁ l₂ : List Item) (h : l₁.map projI = l₂.map projI) :
    nzI l₁ = nzI l₂ := by
  have h1 : nzI l₁ = (l₁.map projI).countP (fun q => decide (0 < q.2)) := by
    rw [List.countP_map]
    rfl
  have h2 : nzI l₂ = (l₂.map projI).countP (fun q => decide (0 < q.2)) := by
    rw [List.countP_map]
    rfl
  rw [h1, h2, h]

/-- One acting step: delta moves strictly toward 0 and all loop
invariants are preserved. -/
theorem distLoop_act_step (l : List Item) (i : Nat) (delta : Int) (it : Item)
    (hi : i < l.length) (hz : delta ≠ 0) (hgood : ∀ x ∈ l, goodItem x)
    (hg : l.get? i = some it) (hact : actItem delta it) :
    ∃ (l₂ : List Item) (i₂ : Nat) (delta₂ : Int),
      (∀ fuel : Nat, distLoop (1 + fuel) l i delta = distLoop fuel l₂ i₂ delta₂) ∧
      l₂.map projI = l.map projI ∧ (∀ x ∈ l₂, goodItem x) ∧
      sumC l₂ + delta₂ = sumC l + delta ∧ l₂.length = l.length ∧
      i₂ < l₂.length ∧ delta₂.natAbs < delta.natAbs := by
  refine ⟨l.set i (stepItem delta it).1, (i + 1) % l.length, (stepItem delta it).2,
    ?_, ?_, ?_, ?_, ?_, ?_, ?_⟩
  · intro fuel
    have h1 : 1 + fuel = fuel + 1 := by omega
    rw [h1, distLoop_succ_some fuel l i delta it hz hg]
  · rw [map_set_eq, stepItem_proj]
    apply set_get_self
    rw [List.get?_map, hg]
    rfl
  · intro x hx
    rcases List.mem_or_eq_of_mem_set hx with hx' | rfl
    · exact hgood x hx'
    · exact stepItem_good delta it (hgood it (List.get?_mem hg))
  · rw [sumC_set l i _ it hg]
    have := stepItem_count_delta delta it
    omega
  · exact List.length_set l i _
  · rw [List.length_set]
    exact Nat.mod_lt _ (lt_of_le_of_lt (Nat.zero_le i) hi)
  · have := stepItem_act delta it hz hact
    omega

/-- If some item at cyclic offset d from the cursor can act, the loop
reaches, in finitely many unfoldings, a state whose delta is strictly
closer to 0, with all invariants preserved. -/
theorem stepsToAct : ∀ (d : Nat) (l : List Item) (i : Nat) (delta : Int),
    i < l.length → delta ≠ 0 → (∀ x ∈ l, goodItem x) →
    (∀ it, l.get? ((i + d) % l.length) = some it → actItem delta it) →
    ∃ (k : Nat) (l₂ : List Item) (i₂ : Nat) (delta₂ : Int),
      (∀ fuel : Nat, distLoop (k + fuel) l i delta = distLoop fuel l₂ i₂ delta₂) ∧
      l₂.map projI = l.map projI ∧ (∀ x ∈ l₂, goodItem x) ∧
      sumC l₂ + delta₂ = sumC l + delta ∧ l₂.length = l.length ∧
      i₂ < l₂.length ∧ delta₂.natAbs < delta.natAbs := by
  intro d
  induction d with
  | zero =>
    intro l i delta hi hz hgood hact
    obtain ⟨it, hg⟩ : ∃ it, l.get? i = some it := by
      cases hg : l.get? i with
      | none =>
        rw [List.get?_eq_none] at hg
        omega
      | some it => exact ⟨it, rfl⟩
    have hioff : (i + 0) % l.length = i := by
      rw [Nat.add_zero, Nat.mod_eq_of_lt hi]
    have hact' : actItem delta it := hact it (by rw [hioff]; exact hg)
    obtain ⟨l₂, i₂, delta₂, h⟩ := distLoop_act_step l i delta it hi hz hgood hg hact'
    exact ⟨1, l₂, i₂, delta₂, h⟩
  | succ d ih =>
    intro l i delta hi hz hgood hact
    obtain ⟨it, hg⟩ : ∃ it, l.get? i = some it := by
      cases hg : l.get? i with
      | none =>
        rw [List.get?_eq_none] at hg
        omega
      | some it => exact ⟨it, rfl⟩
    by_cases hacti : actItem delta it
    · obtain ⟨l₂, i₂, delta₂, h⟩ := distLoop_act_step l i delta it hi hz hgood hg hacti
      exact ⟨1, l₂, i₂, delta₂, h⟩
    · have hstep : stepItem delta it = (it, delta) :=
        stepItem_inact delta it (hgood it (List.get?_mem hg)).1 hacti
      have hlen : 0 < l.length := lt_of_le_of_lt (Nat.zero_le i) hi
      have hi' : (i + 1) % l.length < l.length := Nat.mod_lt _ hlen
      have hact' : ∀ it', l.get? (((i + 1) % l.length + d) % l.length) = some it' →
          actItem delta it' := by
        intro it' hit'
        apply hact it'
        have hmod : ((i + 1) % l.length + d) % l.length = (i + (d + 1)) % l.length := by
          rw [Nat.mod_add_mod]
          congr 1
          omega
        rw [← hmod]
        exact hit'
      obtain ⟨k, l₂, i₂, delta₂, heq, hrest⟩ :=
        ih l ((i + 1) % l.length) delta hi' hz hgood hact'
      refine ⟨k + 1, l₂, i₂, delta₂, ?_, hrest⟩
      intro fuel
      have h1 : k + 1 + fuel = (k + fuel) + 1 := by omega
      rw [h1, distLoop_skip (k + fuel) l i delta it hz hg hstep, heq fuel]

/-- Counting bound: if every positive-share item is pinned at count 1, the
total count is at most the number of positive-share items. -/
theorem sumC_le_nzI (l : List Item) (hgood : ∀ it ∈ l, goodItem it)
    (hcap : ∀ it ∈ l, 0 < it.share → it.count ≤ 1) : sumC l ≤ (nzI l : Int) := by
  induction l with
  | nil => simp [sumC, nzI]
  | cons x t ih =>
    have hx := hgood x (List.mem_cons_self _ _)
    have iht : sumC t ≤ (nzI t : Int) :=
      ih (fun it h => hgood it (List.mem_cons_of_mem _ h))
        (fun it h hp => hcap it (List.mem_cons_of_mem _ h) hp)
    have hs : sumC (x :: t) = x.count + sumC t := by
      rw [sumC, sumC, List.map_cons, List.sum_cons]
    have hc : (nzI (x :: t) : Int) = (nzI t : Int) + (if 0 < x.share then 1 else 0) := by
      by_cases hp : 0 < x.share <;> simp [nzI, List.countP_cons, hp]
    rw [hs, hc]
    by_cases hp : 0 < x.share
    · rw [if_pos hp]
      have h1 := hcap x (List.mem_cons_self _ _) hp
      omega
    · rw [if_neg hp]
      have hz : x.share = 0 := le_antisymm (not_lt.mp hp) hx.1
      have h0 := hx.2.1 hz
      omega

/-- While delta is negative the counts oversubscribe the budget, so some
positive-share item still has count above 1. -/
theorem exists_decrementable (l : List Item) (B : Int)
    (hgood : ∀ it ∈ l, goodItem it) (hfeas : (nzI l : Int) ≤ B) (hsum : B < sumC l) :
    ∃ it ∈ l, 0 < it.share ∧ 1 < it.count := by
  by_contra hcon
  push_neg at hcon
  have hcap : ∀ it ∈ l, 0 < it.share → it.count ≤ 1 := by
    intro it h hp
    have := hcon it h hp
    omega
  have := sumC_le_nzI l hgood hcap
  omega

/-- While delta is nonzero some item of the list can act. -/
theorem exists_act_index (l : List Item) (delta B : Int)
    (hgood : ∀ it ∈ l, goodItem it) (hz : delta ≠ 0) (hnz : 1 ≤ nzI l)
    (hfeas : (nzI l : Int) ≤ B) (hsum : sumC l + delta = B) :
    ∃ j, j < l.length ∧ ∃ it, l.get? j = some it ∧ actItem delta it := by
  by_cases hd : 0 < delta
  · have hpos : 0 < l.countP (fun it => decide (0 < it.share)) := hnz
    obtain ⟨it, hmem, hp⟩ := List.countP_pos_iff.mp hpos
    obtain ⟨j, hj⟩ := List.mem_iff_get?.mp hmem
    obtain ⟨hjlen, _⟩ := List.get?_eq_some.mp hj
    exact ⟨j, hjlen, it, hj, ⟨by simpa using hp, Or.inl hd⟩⟩
  · obtain ⟨it, hmem, hp, hc⟩ := exists_decrementable l B hgood hfeas (by omega)
    obtain ⟨j, hj⟩ := List.mem_iff_get?.mp hmem
    obtain ⟨hjlen, _⟩ := List.get?_eq_some.mp hj
    exact ⟨j, hjlen, it, hj, ⟨hp, Or.inr hc⟩⟩

/-- Termination of the redistribution loop under feasibility plus at
least one positive-share item: some fuel makes it return. -/
theorem distLoop_terminates : ∀ (md : Nat) (l : List Item) (i : Nat) (delta B : Int),
    delta.natAbs ≤ md → i < l.length → (∀ it ∈ l, goodItem it) →
    1 ≤ nzI l → (nzI l : Int) ≤ B → sumC l + delta = B →
    ∃ (fuel : Nat) (out : List Item), distLoop fuel l i delta = some out := by
  intro md
  induction md with
  | zero =>
    intro l i delta B habs _ _ _ _ _
    have hz : delta = 0 := by omega
    exact ⟨1, l, by rw [hz, distLoop_succ_zero]⟩
  | succ n ih =>
    intro l i delta B habs hi hgood hnz hfeas hsum
    by_cases hz : delta = 0
    · exact ⟨1, l, by rw [hz, distLoop_succ_zero]⟩
    · obtain ⟨j, hjlen, it, hj, hact⟩ := exists_act_index l delta B hgood hz hnz hfeas hsum
      have hlen : 0 < l.length := lt_of_le_of_lt (Nat.zero_le i) hi
      have hoff : (i + (j + l.length - i)) % l.length = j := by
        have h2 : i + (j + l.length - i) = j + l.length := by omega
        rw [h2, Nat.add_mod_right]
        exact Nat.mod_eq_of_lt hjlen
      obtain ⟨k, l₂, i₂, delta₂, heq, hproj, hgood₂, hsum₂, hlen₂, hi₂, habs₂⟩ :=
        stepsToAct (j + l.length - i) l i delta hi hz hgood (by
          intro it' hit'
          rw [hoff, hj] at hit'
          obtain rfl : it = it' := by injection hit'
          exact hact)
      have hnz₂ : nzI l₂ = nzI l := nzI_eq_of_proj_eq l₂ l hproj
      obtain ⟨fuel₂, out, hout⟩ := ih l₂ i₂ delta₂ B (by omega) hi₂ hgood₂
        (by omega) (by rw [hnz₂]; exact hfeas) (by omega)
      exact ⟨k + fuel₂, out, by rw [heq fuel₂]; exact hout⟩

/-- The floor stage produces items satisfying the per-item invariant. -/
theorem mkItem_good (B : Int) (e : Entry) (h : 0 ≤ e.share) : goodItem (mkItem B e) := by
  have hsh : (mkItem B e).share = e.share := rfl
  have hct : (mkItem B e).count =
      if 0 < e.share then max 1 ⌊e.share * (B : Rat)⌋ else 0 := rfl
  refine ⟨by rw [hsh]; exact h, ?_, ?_⟩
  · intro hz
    rw [hsh] at hz
    rw [hct, if_neg (by rw [hz]; exact lt_irrefl 0)]
  · intro hp
    rw [hsh] at hp
    rw [hct, if_pos hp]
    exact le_max_left 1 _

/-- C4 (amended): every call of distributeWaves with nonnegative shares, a
positive budget, at most budget-many positive-share entries, and at least
one positive-share entry, terminates and returns a mapping. -/
theorem C4_terminates_amended (entries : List Entry) (B : Int)
    (hpos : ∀ e ∈ entries, 0 ≤ e.share) (hB : 0 < B)
    (hfeas : (nzE entries : Int) ≤ B)
    (hex : ∃ e ∈ entries, 0 < e.share) :
    ∃ (fuel : Nat) (m : List (String × Int)), distributeWaves entries B fuel = some m := by
  have hperm : (sortLe remGe (entries.map (mkItem B))).Perm (entries.map (mkItem B)) :=
    sortLe_perm remGe _
  have hsumeq : sumC (sortLe remGe (entries.map (mkItem B))) =
      sumC (entries.map (mkItem B)) := by
    rw [sumC, sumC]
    exact (hperm.map (fun it => it.count)).sum_eq
  have hnzfl : nzI (entries.map (mkItem B)) = nzE entries := by
    rw [nzI, nzE, List.countP_map]
    rfl
  have hnzs : nzI (sortLe remGe (entries.map (mkItem B))) = nzE entries := by
    rw [nzI, hperm.countP_eq, ← nzI, hnzfl]
  have hgood : ∀ x ∈ sortLe remGe (entries.map (mkItem B)), goodItem x := by
    intro x hx
    obtain ⟨e, he, rfl⟩ := List.mem_map.mp (hperm.subset hx)
    exact mkItem_good B e (hpos e he)
  have hnz1 : 1 ≤ nzI (sortLe remGe (entries.map (mkItem B))) := by
    rw [hnzs, nzE]
    obtain ⟨e, he, hp⟩ := hex
    exact List.countP_pos_iff.mpr ⟨e, he, by simpa using hp⟩
  have hlen : 0 < (sortLe remGe (entries.map (mkItem B))).length := by
    obtain ⟨e, he, _⟩ := hex
    have hne : entries ≠ [] := by rintro rfl; cases he
    rw [hperm.length_eq, List.length_map]
    exact List.length_pos.mpr hne
  obtain ⟨fuel, out, hout⟩ := distLoop_terminates
    (B - sumC (entries.map (mkItem B))).natAbs
    (sortLe remGe (entries.map (mkItem B))) 0
    (B - sumC (entries.map (mkItem B))) B le_rfl hlen hgood hnz1
    (by rw [hnzs]; exact hfeas) (by omega)
  refine ⟨fuel, out.map (fun it => (it.stateCode, it.count)), ?_⟩
  rw [distributeWaves_eq, hout]
  rfl

/-- C1: under the claim preconditions (nonnegative shares, positive
budget, feasibility, distinct state codes, so the association list is the
returned mapping), whenever distributeWaves returns a mapping its counts
sum exactly to the budget. -/
theorem C1_allocation_sum (entries : List Entry) (B : Int)
    (hpos : ∀ e ∈ entries, 0 ≤ e.share) (hB : 0 < B)
    (hfeas : (nzE entries : Int) ≤ B)
    (hnodup : (entries.map (fun e => e.stateCode)).Nodup)
    (fuel : Nat) (m : List (String × Int))
    (h : distributeWaves entries B fuel = some m) :
    (m.map (fun q => q.2)).sum = B := by
  rw [distributeWaves_eq] at h
  obtain ⟨out, hout, rfl⟩ := Option.map_eq_some'.mp h
  have hsum := distLoop_some_sum fuel _ 0 _ out hout
  have hperm : (sortLe remGe (entries.map (mkItem B))).Perm (entries.map (mkItem B)) :=
    sortLe_perm remGe _
  have hse : sumC (sortLe remGe (entries.map (mkItem B))) =
      sumC (entries.map (mkItem B)) := by
    rw [sumC, sumC]
    exact (hperm.map (fun it => it.count)).sum_eq
  have hms : (out.map (fun it => (it.stateCode, it.count))).map (fun q => q.2) =
      out.map (fun it => it.count) := by
    rw [List.map_map]
    rfl
  rw [hms]
  have hso : sumC out = (out.map (fun it => it.count)).sum := rfl
  omega

/-- C3: under the claim preconditions, whenever distributeWaves returns a
mapping, every entry receives a count that is at least 1 when its share is
positive and is 0 exactly when its share is 0. -/
theorem C3_at_least_one (entries : List Entry) (B : Int)
    (hpos : ∀ e ∈ entries, 0 ≤ e.share) (hB : 0 < B)
    (hfeas : (nzE entries : Int) ≤ B)
    (hnodup : (entries.map (fun e => e.stateCode)).Nodup)
    (fuel : Nat) (m : List (String × Int))
    (h : distributeWaves entries B fuel = some m) :
    ∀ e ∈ entries, ∃ c : Int, (e.stateCode, c) ∈ m ∧
      (0 < e.share → 1 ≤ c) ∧ (c = 0 ↔ e.share = 0) := by
  rw [distributeWaves_eq] at h
  obtain ⟨out, hout, rfl⟩ := Option.map_eq_some'.mp h
  have hperm : (sortLe remGe (entries.map (mkItem B))).Perm (entries.map (mkItem B)) :=
    sortLe_perm remGe _
  have hgood0 : ∀ x ∈ sortLe remGe (entries.map (mkItem B)), goodItem x := by
    intro x hx
    obtain ⟨e, he, rfl⟩ := List.mem_map.mp (hperm.subset hx)
    exact mkItem_good B e (hpos e he)
  have hgood := distLoop_some_good fuel _ 0 _ out hout hgood0
  have hproj := distLoop_some_proj fuel _ 0 _ out hout
  intro e he
  have hpe : (e.stateCode, e.share) ∈ out.map projI := by
    rw [hproj]
    refine (hperm.map projI).mem_iff.mpr ?_
    have hcomp : (entries.map (mkItem B)).map projI =
        entries.map (fun e' => (e'.stateCode, e'.share)) := by
      rw [List.map_map]
      rfl
    rw [hcomp]
    exact List.mem_map_of_mem _ he
  obtain ⟨it, hit, hpi⟩ := List.mem_map.mp hpe
  have hsc : it.stateCode = e.stateCode := congrArg Prod.fst hpi
  have hsh : it.share = e.share := congrArg Prod.snd hpi
  refine ⟨it.count, ?_, ?_, ?_⟩
  · refine List.mem_map.mpr ⟨it, hit, ?_⟩
    show (it.stateCode, it.count) = (e.stateCode, it.count)
    rw [hsc]
  · intro hp
    exact (hgood it hit).2.2 (by rw [hsh]; exact hp)
  · constructor
    · intro hc0
      by_contra hne
      have hp : 0 < e.share := lt_of_le_of_ne (hpos e he) (Ne.symm hne)
      have h1 := (hgood it hit).2.2 (by rw [hsh]; exact hp)
      omega
    · intro hz
      exact (hgood it hit).2.1 (by rw [hsh]; exact hz)

/-! ### Claims on the degenerate and infeasible inputs -/

/-- C10: with a positive budget, distributeWaves never returns on an
empty entry list (the cyclic index computation yields no valid element to
read) nor on a nonempty list whose shares are all zero (the loop never
reaches delta = 0); renderChart guards the empty case by taking its
no-data branch before allocation. -/
theorem C10_degenerate_never_returns :
    (∀ (B : Int) (fuel : Nat), 0 < B → distributeWaves [] B fuel = none) ∧
    (∀ (entries : List Entry) (B : Int) (fuel : Nat), entries ≠ [] →
      (∀ e ∈ entries, e.share = 0) → 0 < B → distributeWaves entries B fuel = none) ∧
    (∀ fuel : Nat, renderChartCounts [] fuel = none) := by
  refine ⟨?_, ?_, ?_⟩
  · intro B fuel hB
    rw [distributeWaves_eq]
    have hS : sortLe remGe (([] : List Entry).map (mkItem B)) = [] := rfl
    have hd : B - sumC (([] : List Entry).map (mkItem B)) = B := by
      show B - (0 : Int) = B
      omega
    rw [hS, hd]
    cases fuel with
    | zero => rfl
    | succ n =>
      rw [distLoop_succ_none n [] 0 B (by omega) rfl]
      rfl
  · intro entries B fuel hne hzero hB
    rw [distributeWaves_eq]
    have hz : sumC (entries.map (mkItem B)) = 0 := by
      rw [sumC]
      apply List.sum_eq_zero
      intro x hx
      obtain ⟨it, hit, rfl⟩ := List.mem_map.mp hx
      obtain ⟨e, he, rfl⟩ := List.mem_map.mp hit
      show (if 0 < e.share then max 1 ⌊e.share * (B : Rat)⌋ else 0) = 0
      rw [if_neg (by rw [hzero e he]; exact lt_irrefl 0)]
    have hdne : B - sumC (entries.map (mkItem B)) ≠ 0 := by omega
    have hstuck : ∀ it ∈ sortLe remGe (entries.map (mkItem B)),
        it.share = 0 ∨ (B - sumC (entries.map (mkItem B)) < 0 ∧ it.count ≤ 1) := by
      intro it hit
      obtain ⟨e, he, rfl⟩ := List.mem_map.mp ((sortLe_perm remGe _).subset hit)
      left
      show e.share = 0
      exact hzero e he
    rw [distLoop_stuck fuel _ 0 _ hdne hstuck]
    rfl
  · intro fuel
    rfl

set_option allowUnsafeReducibility true

section ConcreteEvaluation

attribute [local semireducible] Rat.add Rat.mul Rat.sub Rat.inv

/-- C2 (evaluation of the code at the failing input): entries A and B of
share one half each with budget 1 have two nonzero-share entries, more
than the budget; the source has no up-front feasibility check and raises
no AllocationInfeasibleError — instead the redistribution loop spins
forever (both counts pinned at 1, delta fixed at -1), so the call returns
no value for any fuel. -/
theorem C2_no_infeasibility_check (fuel : Nat) :
    distributeWaves [entryA, entryB] 1 fuel = none := by
  rw [distributeWaves_eq, distLoop_stuck fuel _ 0 _ (by decide) (by decide)]
  rfl

/-- C4 counterexample: the single zero-share entry with budget 3
satisfies every precondition of the claim (share nonnegative, positive
budget, zero nonzero-share entries, which is at most the budget), yet the
call returns no value for any fuel, so the claimed termination fails. -/
theorem C4_counterexample :
    (∀ e ∈ [zeroEntry], 0 ≤ e.share) ∧ (0 : Int) < 3 ∧
    (nzE [zeroEntry] : Int) ≤ 3 ∧
    ¬ ∃ (fuel : Nat) (m : List (String × Int)),
        distributeWaves [zeroEntry] 3 fuel = some m := by
  refine ⟨by decide, by decide, by decide, ?_⟩
  rintro ⟨fuel, m, h⟩
  rw [distributeWaves_eq, distLoop_stuck fuel _ 0 _ (by decide) (by decide)] at h
  cases h

/-- C5 counterexample: the single record with contribution 0 produces the
nonempty (2022, 1) bucket containing Fiji with share 0, so the shares of
this nonempty bucket sum to 0 and not to 1. -/
theorem C5_counterexample :
    lookupP (aggregateAndNormalize [recFJ0]).byYearClass (2022, 1) =
      some [("FJ", ⟨"Fiji", "Melanesia", 0, 6, 0⟩)] ∧
    ([("FJ", (⟨"Fiji", "Melanesia", 0, 6, 0⟩ : NormState))] : List (String × NormState)) ≠ [] ∧
    (([("FJ", (⟨"Fiji", "Melanesia", 0, 6, 0⟩ : NormState))].map (fun q => q.2.share)).sum) ≠ 1 := by
  refine ⟨by decide, by decide, by decide⟩

/-- C1 witness: entries A and B with budget 10 satisfy all preconditions,
distributeWaves returns the mapping A 5, B 5 at fuel 1, and its counts
sum to the budget 10. -/
theorem C1_witness :
    (([("A", 5), ("B", 5)] : List (String × Int)).map (fun q => q.2)).sum = 10 :=
  C1_allocation_sum [entryA, entryB] 10 (by decide) (by decide) (by decide) (by decide)
    1 [("A", 5), ("B", 5)] (by decide)

/-- C3 witness: in the same run, entry A (share one half) receives a
count that is at least 1 and nonzero. -/
theorem C3_witness :
    ∃ c : Int, ("A", c) ∈ ([("A", 5), ("B", 5)] : List (String × Int)) ∧
      (0 < entryA.share → 1 ≤ c) ∧ (c = 0 ↔ entryA.share = 0) :=
  C3_at_least_one [entryA, entryB] 10 (by decide) (by decide) (by decide) (by decide)
    1 [("A", 5), ("B", 5)] (by decide) entryA (by decide)

/-- C4 witness (for the amended theorem): entries A and B with budget 10
meet the amended preconditions and the call terminates. -/
theorem C4_witness :
    ∃ (fuel : Nat) (m : List (String × Int)),
      distributeWaves [entryA, entryB] 10 fuel = some m :=
  C4_terminates_amended [entryA, entryB] 10 (by decide) (by decide) (by decide)
    ⟨entryA, by decide, by decide⟩

/-- C5 witness (for the amended theorem): the two Fiji records with
contributions 2 and 3 give a bucket of total 5, and its shares sum
to 1. -/
theorem C5_witness :
    lookupP (aggregateAndNormalize [recFJ1, recFJ2]).byYearClass (2022, 1) =
      some (normalizeBucket [("FJ", ⟨"Fiji", "Melanesia", 5, 7, 9⟩)]) ∧
    ((normalizeBucket [("FJ", ⟨"Fiji", "Melanesia", 5, 7, 9⟩)]).map
      (fun q => q.2.share)).sum = 1 :=
  C5_share_sum_amended [recFJ1, recFJ2] 2022 1 [("FJ", ⟨"Fiji", "Melanesia", 5, 7, 9⟩)]
    (by decide) (by decide)

/-- C6 witness: splitting the two Fiji records into prefix and suffix
preserves the rawSum of their key, and the Fiji state of the zero-total
bucket has share 0. -/
theorem C6_witness :
    (rawSumD ([recFJ1] ++ [recFJ2]) 2022 1 "FJ" =
      rawSumD [recFJ1] 2022 1 "FJ" + rawSumD [recFJ2] 2022 1 "FJ") ∧
    (⟨"Fiji", "Melanesia", 0, 6, 0⟩ : NormState).share = 0 :=
  ⟨C6_aggregation_additive.1 [recFJ1] [recFJ2] 2022 1 "FJ",
   C6_aggregation_additive.2 [recFJ0] 2022 1 [("FJ", ⟨"Fiji", "Melanesia", 0, 6, 0⟩)] "FJ"
     ⟨"Fiji", "Melanesia", 0, 6, 0⟩ (by decide) (by decide) (by decide)⟩

/-- C7 witness: exchanging the Fiji and Tonga records leaves years and
classes unchanged. -/
theorem C7_witness :
    (aggregateAndNormalize [recFJ1, recTO]).years =
      (aggregateAndNormalize [recTO, recFJ1]).years ∧
    (aggregateAndNormalize [recFJ1, recTO]).classes =
      (aggregateAndNormalize [recTO, recFJ1]).classes :=
  (C7_years_classes [recFJ1, recTO]).2.2.2.2 [recTO, recFJ1] (by decide)

/-- C8 witness: aggregating the two Fiji records gives rawSum 5 while
rank 7 and missing 9 come from the second (last) record. -/
theorem C8_witness :
    (⟨"Fiji", "Melanesia", 5, 7, 9⟩ : StateAgg).rawSum =
      ((matchRecords [recFJ1, recFJ2] 2022 1 "FJ").map
        (fun d => d.value_contribution_to_class)).sum ∧
    (⟨"Fiji", "Melanesia", 5, 7, 9⟩ : StateAgg).rank = recFJ2.state_rank_per_class ∧
    (⟨"Fiji", "Melanesia", 5, 7, 9⟩ : StateAgg).missing = recFJ2.pct_missing_values := by
  have h := C8_last_write_wins [recFJ1, recFJ2] 2022 1 "FJ"
    ⟨"Fiji", "Melanesia", 5, 7, 9⟩ (by decide)
  exact ⟨h.1, h.2 recFJ2 (by decide)⟩

/-- C9 witness: the zero-contribution record gives a bucket with divisor
1, a defined byYearClass entry, and all-zero shares. -/
theorem C9_witness :
    bucketDivisor [("FJ", ⟨"Fiji", "Melanesia", 0, 6, 0⟩)] = 1 ∧
    lookupP (aggregateAndNormalize [recFJ0]).byYearClass (2022, 1) =
      some (normalizeBucket [("FJ", ⟨"Fiji", "Melanesia", 0, 6, 0⟩)]) ∧
    ∀ q ∈ normalizeBucket [("FJ", ⟨"Fiji", "Melanesia", 0, 6, 0⟩)], q.2.share = 0 :=
  C9_zero_total_guard [recFJ0] 2022 1 [("FJ", ⟨"Fiji", "Melanesia", 0, 6, 0⟩)]
    (by decide) (by decide) (by decide)

/-- C10 witness: the three statements instantiated at budget 100 and
fuel 7. -/
theorem C10_witness :
    distributeWaves [] 100 7 = none ∧
    distributeWaves [zeroEntry] 100 7 = none ∧
    renderChartCounts [] 7 = none :=
  ⟨C10_degenerate_never_returns.1 100 7 (by decide),
   C10_degenerate_never_returns.2.1 [zeroEntry] 100 7 (by decide) (by decide) (by decide),
   C10_degenerate_never_returns.2.2 7⟩

end ConcreteEvaluation

end BluePacific
